import Mathlib

/-!
Shallow embedding of the StringZilla serial backend (src/src/serial.c) and
verification of the frozen specification claims against it.

Modelling conventions:
- A byte string is a `List Nat`, each element a byte value in `[0, 256)`.
- `sz_u64_t` arithmetic is `Nat` reduced modulo `2 ^ 64` wherever the C code
  can wrap; `sz_u8_t` stores reduce modulo `256`.
- `char` is modelled as a signed 8-bit type, as on the library's primary
  x86-64 targets (both MSVC and the SysV ABI default to signed `char`).
  `charToInt` maps a byte to the value of that `char`.
- Pointers are modelled as base address plus offset; functions whose control
  flow inspects pointer alignment receive the base address (`addr`) as an
  explicit argument, since only `addr % 8` is observable.
- Each C loop is a structurally recursive Lean function with an explicit
  `fuel` counter so that it is executable by kernel reduction. Every loop of
  the source advances its cursor by at least one byte per iteration, so the
  fuel chosen at each call site (the buffer length plus a small constant)
  strictly exceeds the possible iteration count and the fuel-exhaustion
  branch (returning `none` or junk) is unreachable.
- A 64-bit load at offset `i` yields the little-endian packing of the eight
  bytes starting at `i`; bytes read past the end of the modelled buffer are
  unspecified in C and modelled as `0` (no claim settled below depends on an
  out-of-bounds read).
-/

namespace StringZilla

/-- Modulus of `sz_u64_t` arithmetic. -/
def M64 : Nat := 2 ^ 64

/-- Value of a byte seen through the signed `char` type, as in `(int)c`
applied to a `char` on a signed-char platform. -/
def charToInt (b : Nat) : Int :=
  if b < 128 then (b : Int) else (b : Int) - 256

/-- Cast of a (possibly negative) integer to `sz_u64_t`: two's complement
reduction modulo `2 ^ 64`. -/
def intToU64 (i : Int) : Nat :=
  (i % (M64 : Int)).toNat

/-- Little-endian packing of a byte list into a natural number:
`lePack [b0, b1, ...] = b0 + 256 * (b1 + 256 * ...)`. -/
def lePack : List Nat → Nat
  | [] => 0
  | b :: bs => b + 256 * lePack bs

/-- Unaligned 64-bit little-endian load of the eight bytes of `l` starting at
offset `i` (`sz_u64_unaligned_load`); bytes past the end read as `0`. -/
def load64 (l : List Nat) (i : Nat) : Nat :=
  lePack ((l.drop i).take 8)

/-- Left-rotation of a 64-bit word (`sz_rotl64`). -/
def rotl64 (x r : Nat) : Nat :=
  ((x <<< r) % M64) ||| (x >>> (64 - r))

/-- Count of trailing zero bits of a 64-bit word (`sz_ctz64`); the C intrinsic
is undefined at `0`, where this model returns `64`. -/
def ctz64 (n : Nat) : Nat :=
  (List.range 64).findIdx (fun i => n.testBit i)

/-- Count of leading zero bits of a 64-bit word (`sz_clz64`); the C intrinsic
is undefined at `0`, where this model returns `64`. -/
def clz64 (n : Nat) : Nat :=
  (List.range 64).findIdx (fun i => n.testBit (63 - i))

/-- Byte-order reversal of a 64-bit word (`sz_u64_byte_reverse`). -/
def byteRev64 (n : Nat) : Nat :=
  lePack (((List.range 8).map (fun i => (n >>> (8 * i)) &&& 255)).reverse)

/-- The 256-entry lookup table of `sz_char_tolower`, transcribed verbatim. -/
def loweredTable : List Nat := [
  0,   1,   2,   3,   4,   5,   6,   7,   8,   9,   10,  11,  12,  13,  14,  15,
  16,  17,  18,  19,  20,  21,  22,  23,  24,  25,  26,  27,  28,  29,  30,  31,
  32,  33,  34,  35,  36,  37,  38,  39,  40,  41,  42,  43,  44,  45,  46,  47,
  48,  49,  50,  51,  52,  53,  54,  55,  56,  57,  58,  59,  60,  61,  62,  63,
  64,  97,  98,  99,  100, 101, 102, 103, 104, 105, 106, 107, 108, 109, 110, 111,
  112, 113, 114, 115, 116, 117, 118, 119, 120, 121, 122, 91,  92,  93,  94,  95,
  96,  97,  98,  99,  100, 101, 102, 103, 104, 105, 106, 107, 108, 109, 110, 111,
  112, 113, 114, 115, 116, 117, 118, 119, 120, 121, 122, 123, 124, 125, 126, 127,
  128, 129, 130, 131, 132, 133, 134, 135, 136, 137, 138, 139, 140, 141, 142, 143,
  144, 145, 146, 147, 148, 149, 150, 151, 152, 153, 154, 155, 156, 157, 158, 159,
  160, 161, 162, 163, 164, 165, 166, 167, 168, 169, 170, 171, 172, 173, 174, 175,
  176, 177, 178, 179, 180, 181, 182, 183, 184, 185, 186, 187, 188, 189, 190, 191,
  224, 225, 226, 227, 228, 229, 230, 231, 232, 233, 234, 235, 236, 237, 238, 239,
  240, 241, 242, 243, 244, 245, 246, 215, 248, 249, 250, 251, 252, 253, 254, 223,
  224, 225, 226, 227, 228, 229, 230, 231, 232, 233, 234, 235, 236, 237, 238, 239,
  240, 241, 242, 243, 244, 245, 246, 247, 248, 249, 250, 251, 252, 253, 254, 255]

/-- The 256-entry lookup table of `sz_char_toupper`, transcribed verbatim. -/
def uppedTable : List Nat := [
  0,   1,   2,   3,   4,   5,   6,   7,   8,   9,   10,  11,  12,  13,  14,  15,
  16,  17,  18,  19,  20,  21,  22,  23,  24,  25,  26,  27,  28,  29,  30,  31,
  32,  33,  34,  35,  36,  37,  38,  39,  40,  41,  42,  43,  44,  45,  46,  47,
  48,  49,  50,  51,  52,  53,  54,  55,  56,  57,  58,  59,  60,  61,  62,  63,
  64,  97,  98,  99,  100, 101, 102, 103, 104, 105, 106, 107, 108, 109, 110, 111,
  112, 113, 114, 115, 116, 117, 118, 119, 120, 121, 122, 91,  92,  93,  94,  95,
  96,  65,  66,  67,  68,  69,  70,  71,  72,  73,  74,  75,  76,  77,  78,  79,
  80,  81,  82,  83,  84,  85,  86,  87,  88,  89,  90,  123, 124, 125, 126, 127,
  128, 129, 130, 131, 132, 133, 134, 135, 136, 137, 138, 139, 140, 141, 142, 143,
  144, 145, 146, 147, 148, 149, 150, 151, 152, 153, 154, 155, 156, 157, 158, 159,
  160, 161, 162, 163, 164, 165, 166, 167, 168, 169, 170, 171, 172, 173, 174, 175,
  176, 177, 178, 179, 180, 181, 182, 183, 184, 185, 186, 187, 188, 189, 190, 191,
  224, 225, 226, 227, 228, 229, 230, 231, 232, 233, 234, 235, 236, 237, 238, 239,
  240, 241, 242, 243, 244, 245, 246, 215, 248, 249, 250, 251, 252, 253, 254, 223,
  224, 225, 226, 227, 228, 229, 230, 231, 232, 233, 234, 235, 236, 237, 238, 239,
  240, 241, 242, 243, 244, 245, 246, 247, 248, 249, 250, 251, 252, 253, 254, 255]

/-- The table index computed by `sz_char_tolower`/`sz_char_toupper` for the
input byte `b`: the C code reads `table[(int)c]` where `c` is the `char`
argument, so the index is the signed value of the byte. -/
def caseTableIndex (b : Nat) : Int :=
  charToInt b

/-- Read of a 256-entry table at a (possibly negative) C index: in bounds it
returns the entry, out of bounds the read is undefined behavior, modelled as
`none`. -/
def tableRead (table : List Nat) (i : Int) : Option Nat :=
  if 0 ≤ i ∧ i < 256 then some (table.getD i.toNat 0) else none

/-- Embedding of `sz_char_tolower` on the byte `b`. -/
def szCharTolower (b : Nat) : Option Nat :=
  tableRead loweredTable (caseTableIndex b)

/-- Embedding of `sz_char_toupper` on the byte `b`. -/
def szCharToupper (b : Nat) : Option Nat :=
  tableRead uppedTable (caseTableIndex b)

/-- Unaligned 16-bit little-endian load (`sz_u16_unaligned_load`). -/
def load16 (l : List Nat) (i : Nat) : Nat :=
  lePack ((l.drop i).take 2)

/-- Unaligned 32-bit little-endian load (`sz_u32_unaligned_load`). -/
def load32 (l : List Nat) (i : Nat) : Nat :=
  lePack ((l.drop i).take 4)

/-- One pass of the `sz_equal_serial` switch (the `SZ_USE_MISALIGNED_LOADS`
path, which is the default): a switch on the length with packed loads,
recursing in steps of eight bytes. -/
def szEqualGo (fuel : Nat) : List Nat → List Nat → Nat → Bool :=
  match fuel with
  | 0 => fun _ _ _ => false
  | fuel + 1 => fun a b len =>
      match len with
      | 0 => true
      | 1 => a.getD 0 0 = b.getD 0 0
      | 2 => load16 a 0 = load16 b 0
      | 3 => (load16 a 0 = load16 b 0) && (a.getD 2 0 = b.getD 2 0)
      | 4 => load32 a 0 = load32 b 0
      | 5 => (load32 a 0 = load32 b 0) && (a.getD 4 0 = b.getD 4 0)
      | 6 => (load32 a 0 = load32 b 0) && (load16 a 4 = load16 b 4)
      | 7 => (load32 a 0 = load32 b 0) && (load16 a 4 = load16 b 4) && (a.getD 6 0 = b.getD 6 0)
      | 8 => load64 a 0 = load64 b 0
      | n + 9 =>
          if load64 a 0 = load64 b 0 then szEqualGo fuel (a.drop 8) (b.drop 8) (n + 1) else false

/-- Embedding of `sz_equal_serial`; each pass consumes eight of the `length`
bytes, so `length + 1` units of fuel always suffice. -/
def szEqualSerial (a b : List Nat) (len : Nat) : Bool :=
  szEqualGo (len + 1) a b len

/-- The two-entry `ordering_lookup` array of `sz_order_serial`: index `0`
holds `sz_greater_k = 1`, index `1` holds `sz_less_k = -1`. -/
def ordLookup (b : Bool) : Int :=
  if b then -1 else 1

/-- The final byte-at-a-time loop of `sz_order_serial`, from offset `i` up to
`stop = min_length`; the comparison `*a < *b` is between `char` values, hence
signed. Returns `none` when the loop ends without a differing byte. -/
def szOrderByteLoop (a b : List Nat) (stop : Nat) : Nat → Nat → Option Int
  | 0, _ => none
  | fuel + 1, i =>
      if i < stop then
        if a.getD i 0 ≠ b.getD i 0 then
          some (ordLookup (charToInt (a.getD i 0) < charToInt (b.getD i 0)))
        else szOrderByteLoop a b stop fuel (i + 1)
      else none

/-- The eight-byte SWAR loop of `sz_order_serial` (the
`SZ_USE_MISALIGNED_LOADS` path): byte-reversed 64-bit words are compared as
unsigned integers; falls through to the byte loop for the remainder. -/
def szOrderSwarLoop (a b : List Nat) (minLen : Nat) : Nat → Nat → Option Int
  | 0, _ => none
  | fuel + 1, i =>
      if i + 8 ≤ minLen then
        let av := byteRev64 (load64 a i)
        let bv := byteRev64 (load64 b i)
        if av ≠ bv then some (ordLookup (av < bv)) else szOrderSwarLoop a b minLen fuel (i + 8)
      else szOrderByteLoop a b minLen (minLen + 1) i

/-- Embedding of `sz_order_serial`: SWAR loop, byte tail loop, then the
length tie-break through `ordering_lookup[a_shorter]`. Both loops advance by
at least one byte per step, so `min_length + 1` units of fuel suffice. -/
def szOrderSerial (a b : List Nat) : Int :=
  let aShorter := a.length < b.length
  let minLen := min a.length b.length
  match szOrderSwarLoop a b minLen (minLen + 1) 0 with
  | some r => r
  | none => if a.length ≠ b.length then ordLookup aShorter else 0

/-- Embedding of `sz_u64_each_byte_equal`. -/
def eachByteEqual (a b : Nat) : Nat :=
  let mi := (a ^^^ b) ^^^ (M64 - 1)
  (((mi &&& 0x7F7F7F7F7F7F7F7F) + 0x0101010101010101) % M64) &&&
    (mi &&& 0x8080808080808080)

/-- Broadcast of a needle `char` into a 64-bit word, as in
`(sz_u64_t)needle[0] * 0x0101010101010101ull`: the `char` is sign-extended
by the cast before the multiplication. -/
def byteBroadcast (c : Nat) : Nat :=
  (intToU64 (charToInt c) * 0x0101010101010101) % M64

/-- Byte-at-a-time scan of `sz_find_byte_serial` (head-remainder and tail
loops share this shape). -/
def fbScan (h : List Nat) (c : Nat) : Nat → Nat → Option Nat
  | 0, _ => none
  | fuel + 1, i =>
      if i < h.length then
        if h.getD i 0 = c then some i else fbScan h c fuel (i + 1)
      else none

/-- Main SWAR loop of `sz_find_byte_serial`: aligned 64-bit loads while
`text + 8 <= end`, then the byte tail loop. -/
def fbMain (nv : Nat) (h : List Nat) (c : Nat) : Nat → Nat → Option Nat
  | 0, _ => none
  | fuel + 1, i =>
      if i + 8 ≤ h.length then
        if eachByteEqual (load64 h i) nv ≠ 0 then
          some (i + ctz64 (eachByteEqual (load64 h i) nv) / 8)
        else fbMain nv h c fuel (i + 8)
      else fbScan h c (h.length + 1) i

/-- Misaligned-head loop of `sz_find_byte_serial`: bytes are scanned until the
cursor address `addr + i` is 8-aligned. -/
def fbHead (addr : Nat) (nv : Nat) (h : List Nat) (c : Nat) : Nat → Nat → Option Nat
  | 0, _ => none
  | fuel + 1, i =>
      if (addr + i) % 8 ≠ 0 ∧ i < h.length then
        if h.getD i 0 = c then some i else fbHead addr nv h c fuel (i + 1)
      else fbMain nv h c (h.length + 1) i

/-- Embedding of `sz_find_byte_serial` for a haystack whose first byte lives
at address `addr`; returns the offset of the match. -/
def szFindByteSerial (addr : Nat) (h : List Nat) (c : Nat) : Option Nat :=
  fbHead addr (byteBroadcast c) h c (h.length + 1) 0

/-- Final backward byte loop of `sz_rfind_byte_serial`; the cursor offset `j`
may reach `-1`, hence `Int`. -/
def rfbTail (h : List Nat) (c : Nat) : Nat → Int → Option Int
  | 0, _ => none
  | fuel + 1, j =>
      if 0 ≤ j then
        if h.getD j.toNat 0 = c then some j else rfbTail h c fuel (j - 1)
      else none

/-- Backward SWAR loop of `sz_rfind_byte_serial`: while `text - 8 >= haystack`
it loads the eight bytes at `text` and, on a match, returns
`text - 8 + clz/8`, exactly as in the source. -/
def rfbMain (nv : Nat) (h : List Nat) (c : Nat) : Nat → Int → Option Int
  | 0, _ => none
  | fuel + 1, j =>
      if 0 ≤ j - 8 then
        if eachByteEqual (load64 h j.toNat) nv ≠ 0 then
          some (j - 8 + (clz64 (eachByteEqual (load64 h j.toNat) nv) / 8 : Nat))
        else rfbMain nv h c fuel (j - 8)
      else rfbTail h c (h.length + 2) j

/-- Misaligned-head loop of `sz_rfind_byte_serial`, walking down from the last
byte until the cursor address is 8-aligned. -/
def rfbHead (addr : Nat) (nv : Nat) (h : List Nat) (c : Nat) : Nat → Int → Option Int
  | 0, _ => none
  | fuel + 1, j =>
      if ((addr : Int) + j) % 8 ≠ 0 ∧ 0 ≤ j then
        if h.getD j.toNat 0 = c then some j else rfbHead addr nv h c fuel (j - 1)
      else rfbMain nv h c (h.length + 2) j

/-- Embedding of `sz_rfind_byte_serial` for a haystack at address `addr`;
returns the offset of the match (an `Int`, as the source arithmetic can
produce any pointer). The backward cursor starts at offset `length - 1` and
each loop decrements it at least once per step, stopping before `-2`, so
`length + 2` units of fuel suffice. -/
def szRfindByteSerial (addr : Nat) (h : List Nat) (c : Nat) : Option Int :=
  rfbHead addr (byteBroadcast c) h c (h.length + 2) ((h.length : Int) - 1)

/-- Embedding of `sz_u64_each_2byte_equal`. -/
def each2ByteEqual (a b : Nat) : Nat :=
  let mi := (a ^^^ b) ^^^ (M64 - 1)
  (((mi &&& 0x7FFF7FFF7FFF7FFF) + 0x0001000100010001) % M64) &&&
    (mi &&& 0x8000800080008000)

/-- Tail loop of `sz_find_2byte_serial`: byte-pair scan while
`text + 2 <= end`. -/
def f2bTail (h : List Nat) (n0 n1 : Nat) : Nat → Nat → Option Nat
  | 0, _ => none
  | fuel + 1, i =>
      if i + 2 ≤ h.length then
        if h.getD i 0 = n0 ∧ h.getD (i + 1) 0 = n1 then some i else f2bTail h n0 n1 fuel (i + 1)
      else none

/-- Main loop of `sz_find_2byte_serial`: unaligned 64-bit loads stepping by
seven, with even- and odd-offset two-byte lane comparisons. -/
def f2bMain (nv : Nat) (h : List Nat) (n0 n1 : Nat) : Nat → Nat → Option Nat
  | 0, _ => none
  | fuel + 1, i =>
      if i + 8 ≤ h.length then
        let t := load64 h i
        let even := each2ByteEqual t nv
        let odd := each2ByteEqual (t >>> 8) nv
        if (even + odd) % M64 ≠ 0 then
          some (i + ctz64 ((even >>> 8) ||| odd) / 8)
        else f2bMain nv h n0 n1 fuel (i + 7)
      else f2bTail h n0 n1 (h.length + 1) i

/-- Embedding of `sz_find_2byte_serial`; `n0`, `n1` are the needle's two
bytes, packed unsigned into the broadcast word via the `u8s` union members. -/
def szFind2ByteSerial (h : List Nat) (n0 n1 : Nat) : Option Nat :=
  f2bMain (((n0 + (n1 <<< 8)) * 0x0001000100010001) % M64) h n0 n1 (h.length + 1) 0

/-- Byte-triple scan shared by the head and tail loops of
`sz_find_3byte_serial`. -/
def f3bScanStep (h : List Nat) (n0 n1 n2 i : Nat) : Bool :=
  h.getD i 0 = n0 && (h.getD (i + 1) 0 = n1 && h.getD (i + 2) 0 = n2)

/-- Tail loop of `sz_find_3byte_serial`. -/
def f3bTail (h : List Nat) (n0 n1 n2 : Nat) : Nat → Nat → Option Nat
  | 0, _ => none
  | fuel + 1, i =>
      if i + 3 ≤ h.length then
        if f3bScanStep h n0 n1 n2 i then some i else f3bTail h n0 n1 n2 fuel (i + 1)
      else none

/-- The triple bit-folding of one indicator word in `sz_find_3byte_serial`. -/
def f3bFold (x : Nat) : Nat :=
  let a := x &&& (x >>> 1)
  let b := a &&& (a >>> 2)
  let c := b &&& (b >>> 4)
  ((c >>> 16) &&& (c >>> 8) &&& c) &&& 0x0000010000010000

/-- Main loop of `sz_find_3byte_serial`: aligned 64-bit loads stepping by
six, comparing three shifted copies of the slice against the broadcast. -/
def f3bMain (nn : Nat) (h : List Nat) (n0 n1 n2 : Nat) : Nat → Nat → Option Nat
  | 0, _ => none
  | fuel + 1, i =>
      if i + 8 ≤ h.length then
        let t := load64 h i
        let first := f3bFold ((t ^^^ nn) ^^^ (M64 - 1))
        let second := f3bFold ((((t <<< 8) % M64) ^^^ nn) ^^^ (M64 - 1))
        let third := f3bFold ((((t <<< 16) % M64) ^^^ nn) ^^^ (M64 - 1))
        let m := first ||| (second >>> 8) ||| (third >>> 16)
        if m ≠ 0 then some (i + ctz64 m / 8) else f3bMain nn h n0 n1 n2 fuel (i + 6)
      else f3bTail h n0 n1 n2 (h.length + 1) i

/-- Misaligned-head loop of `sz_find_3byte_serial`. -/
def f3bHead (addr nn : Nat) (h : List Nat) (n0 n1 n2 : Nat) : Nat → Nat → Option Nat
  | 0, _ => none
  | fuel + 1, i =>
      if (addr + i) % 8 ≠ 0 ∧ i + 3 ≤ h.length then
        if f3bScanStep h n0 n1 n2 i then some i else f3bHead addr nn h n0 n1 n2 fuel (i + 1)
      else f3bMain nn h n0 n1 n2 (h.length + 1) i

/-- Embedding of `sz_find_3byte_serial`. The broadcast word is built from the
`char` needle bytes through sign-extending casts, exactly as the source
expressions `(sz_u64_t)(needle[k] << 8k)` behave on a signed-`char` target. -/
def szFind3ByteSerial (addr : Nat) (h : List Nat) (n0 n1 n2 : Nat) : Option Nat :=
  let nn0 := intToU64 (charToInt n0) |||
    ((intToU64 (charToInt n1) <<< 8) % M64) |||
    ((intToU64 (charToInt n2) <<< 16) % M64)
  let nn1 := nn0 ||| ((nn0 <<< 24) % M64)
  let nn := (nn1 <<< 16) % M64
  f3bHead addr nn h n0 n1 n2 (h.length + 1) 0

/-- Byte-quadruple scan shared by the head and tail loops of
`sz_find_4byte_serial`. -/
def f4bScanStep (h : List Nat) (n0 n1 n2 n3 i : Nat) : Bool :=
  h.getD i 0 = n0 && (h.getD (i + 1) 0 = n1 &&
    (h.getD (i + 2) 0 = n2 && h.getD (i + 3) 0 = n3))

/-- Tail loop of `sz_find_4byte_serial`. -/
def f4bTail (h : List Nat) (n0 n1 n2 n3 : Nat) : Nat → Nat → Option Nat
  | 0, _ => none
  | fuel + 1, i =>
      if i + 4 ≤ h.length then
        if f4bScanStep h n0 n1 n2 n3 i then some i else f4bTail h n0 n1 n2 n3 fuel (i + 1)
      else none

/-- The `offset_in_slice` lookup table of `sz_find_4byte_serial`. -/
def offsetInSlice : List Nat := [0, 0, 1, 0, 2, 0, 1, 0, 3, 0, 1, 0, 2, 0, 1, 0]

/-- The 32-bit-lane bit-folding of one indicator word in
`sz_find_4byte_serial`. -/
def f4bFold (x : Nat) : Nat :=
  let a := x &&& (x >>> 1)
  let b := a &&& (a >>> 2)
  let c := b &&& (b >>> 4)
  let d := c &&& (c >>> 8)
  let e := d &&& (d >>> 16)
  e &&& 0x0000000100000001

/-- Main loop of `sz_find_4byte_serial`: aligned 64-bit loads stepping by
four, testing four candidate offsets per slice through two repacked words. -/
def f4bMain (nn : Nat) (h : List Nat) (n0 n1 n2 n3 : Nat) : Nat → Nat → Option Nat
  | 0, _ => none
  | fuel + 1, i =>
      if i + 8 ≤ h.length then
        let t := load64 h i
        let t01 := (t &&& 0x00000000FFFFFFFF) ||| (((t &&& 0x000000FFFFFFFF00) <<< 24) % M64)
        let t23 := ((t &&& 0x0000FFFFFFFF0000) >>> 16) ||| (((t &&& 0x00FFFFFFFF000000) <<< 8) % M64)
        let i01 := f4bFold ((t01 ^^^ nn) ^^^ (M64 - 1))
        let i23 := f4bFold ((t23 ^^^ nn) ^^^ (M64 - 1))
        if (i01 + i23) % M64 ≠ 0 then
          let m := ((i01 >>> 31) ||| i01 ||| (i23 >>> 29) ||| ((i23 <<< 2) % M64)) % 256
          some (i + offsetInSlice.getD m 0)
        else f4bMain nn h n0 n1 n2 n3 fuel (i + 4)
      else f4bTail h n0 n1 n2 n3 (h.length + 1) i

/-- Misaligned-head loop of `sz_find_4byte_serial`. -/
def f4bHead (addr nn : Nat) (h : List Nat) (n0 n1 n2 n3 : Nat) : Nat → Nat → Option Nat
  | 0, _ => none
  | fuel + 1, i =>
      if (addr + i) % 8 ≠ 0 ∧ i + 4 ≤ h.length then
        if f4bScanStep h n0 n1 n2 n3 i then some i else f4bHead addr nn h n0 n1 n2 n3 fuel (i + 1)
      else f4bMain nn h n0 n1 n2 n3 (h.length + 1) i

/-- Embedding of `sz_find_4byte_serial`, with the same sign-extending
broadcast construction as the source casts. -/
def szFind4ByteSerial (addr : Nat) (h : List Nat) (n0 n1 n2 n3 : Nat) : Option Nat :=
  let nn0 := intToU64 (charToInt n0) |||
    ((intToU64 (charToInt n1) <<< 8) % M64) |||
    ((intToU64 (charToInt n2) <<< 16) % M64) |||
    ((intToU64 (charToInt n3) <<< 24) % M64)
  let nn := nn0 ||| ((nn0 <<< 32) % M64)
  f4bHead addr nn h n0 n1 n2 n3 (h.length + 1) 0

/-- The 256-entry Bitap pattern mask of width `W` (`W` is 8, 16 or 64 for the
three kernels): all bits set, with bit `i` cleared at every byte `n[i]`. The
source indexes the mask array by a plain `char`, which on signed-`char`
targets is out of bounds for bytes at or above `0x80`; the model indexes by
the byte value, and no claim settled below exercises that corner. -/
def bitapMask (W : Nat) (n : List Nat) (c : Nat) : Nat :=
  (List.range n.length).foldl
    (fun m i => if n.getD i 0 = c then m &&& ((2 ^ W - 1) ^^^ ((1 <<< i) % 2 ^ W)) else m)
    (2 ^ W - 1)

/-- The scanning loop shared by `sz_find_under8byte_serial`,
`sz_find_under16byte_serial` and `sz_find_under64byte_serial`, which differ
only in the state width `W`. -/
def bitapLoop (W : Nat) (mask : Nat → Nat) (nl : Nat) (h : List Nat) : Nat → Nat → Nat → Option Nat
  | 0, _, _ => none
  | fuel + 1, i, rm =>
      if i < h.length then
        let rm2 := ((rm <<< 1) ||| mask (h.getD i 0)) % 2 ^ W
        if rm2 &&& (1 <<< (nl - 1)) = 0 then some (i + 1 - nl)
        else bitapLoop W mask nl h fuel (i + 1) rm2
      else none

/-- Embedding of the three Bitap kernels at state width `W`, searching for
the needle `n` in `h`. -/
def szFindBitap (W : Nat) (h n : List Nat) : Option Nat :=
  bitapLoop W (bitapMask W n) n.length h (h.length + 1) 0 (2 ^ W - 1)

/-- The long-needle loop of `sz_find_serial`: Bitap on the first 64 needle
bytes as a seed, then verification of the rest via `sz_equal_serial`, with
the cursor advanced just past a failed seed; the cursor grows by at least 64
per retry, so `h.length + 1` rounds of fuel suffice. -/
def szFindLong (h n : List Nat) : Nat → Nat → Option Nat
  | 0, _ => none
  | fuel + 1, i =>
      if i ≤ h.length - n.length then
        match szFindBitap 64 (h.drop i) (n.take 64) with
        | none => none
        | some rel =>
            let found := i + rel
            if szEqualSerial (h.drop (found + 64)) (n.drop 64) (n.length - 64) then some found
            else szFindLong h n fuel (found + 64)
      else none

/-- Embedding of `sz_find_serial`: the length guard, the empty-needle case,
and dispatch on the needle length to the specialized kernels. -/
def szFindSerial (addr : Nat) (h n : List Nat) : Option Nat :=
  if h.length < n.length then none
  else
    match n.length with
    | 0 => none
    | 1 => szFindByteSerial addr h (n.getD 0 0)
    | 2 => szFind2ByteSerial h (n.getD 0 0) (n.getD 1 0)
    | 3 => szFind3ByteSerial addr h (n.getD 0 0) (n.getD 1 0) (n.getD 2 0)
    | 4 => szFind4ByteSerial addr h (n.getD 0 0) (n.getD 1 0) (n.getD 2 0) (n.getD 3 0)
    | _ + 5 =>
        if n.length ≤ 8 then szFindBitap 8 h n
        else if n.length ≤ 16 then szFindBitap 16 h n
        else if n.length ≤ 64 then szFindBitap 64 h n
        else szFindLong h n (h.length + 1) 0

/-- Inner column loop of the two Levenshtein row kernels
(`_sz_levenshtein_serial_upto256bytes` with `M = 256`,
`_sz_levenshtein_serial_over256bytes` with `M = 2 ^ 64`): given the needle
byte `ai` of the current row, the remaining haystack bytes `bs`, the matching
tail of the previous row (`prev[j], prev[j+1], ...`) and the cell to the left,
it produces the remaining cells of the current row; every store truncates to
the cell type, i.e. reduces modulo `M`. -/
def levRow (M ai : Nat) : List Nat → List Nat → Nat → List Nat
  | [], _, _ => []
  | bj :: bs, pDiag :: pRest, left =>
      let costDeletion := (pRest.headD 0 + 1) % M
      let costInsertion := (left + 1) % M
      let costSubstitution := (pDiag + (if ai = bj then 0 else 1)) % M
      let c := min costDeletion (min costInsertion costSubstitution)
      c :: levRow M ai bs pRest c
  | _ :: _, [], _ => []

/-- Outer row loop of the Levenshtein kernels, with the per-row minimum
tracking and the early exit `if (min_distance >= bound) return bound`, and
the final `previous_distances[b_length] < bound ? ... : bound`. -/
def levLoop (M : Nat) (b : List Nat) (bound : Nat) : List Nat → List Nat → Nat → Nat
  | [], prev, _ =>
      let r := prev.getD b.length 0
      if r < bound then r else bound
  | ai :: rest, prev, i =>
      let c0 := (i + 1) % M
      let rowTail := levRow M ai b prev c0
      let minDistance := rowTail.foldl (fun m v => min v m) bound
      if bound ≤ minDistance then bound else levLoop M b bound rest (c0 :: rowTail) (i + 1)

/-- Embedding of `sz_levenshtein_serial`: the empty-side clamps, the
length-difference early return, and dispatch to the 8-bit-cell kernel when
both inputs are under 256 bytes, else the `sz_size_t`-cell kernel. The
caller-provided scratch buffer is fully overwritten before it is read, so it
does not appear in the model. -/
def szLevenshteinSerial (a b : List Nat) (bound : Nat) : Nat :=
  if a.length = 0 then (if b.length ≤ bound then b.length else bound)
  else if b.length = 0 then (if a.length ≤ bound then a.length else bound)
  else if (if b.length < a.length then a.length - b.length else b.length - a.length) > bound
    then bound
  else
    let M := if a.length < 256 ∧ b.length < 256 then 256 else M64
    levLoop M b bound a ((List.range (b.length + 1)).map (· % M)) 0

/-- Wrapped Wagner–Fischer cell value with cell modulus `M`, in terms of the
reversed prefixes `ra` of the first and `rb` of the second string:
`cellW M ra rb` is the value the row kernel stores for the cell at row
`ra.length`, column `rb.length`. -/
def cellW (M : Nat) : List Nat → List Nat → Nat
  | [], rb => rb.length % M
  | _ :: ra, [] => (ra.length + 1) % M
  | x :: ra, y :: rb =>
      min ((cellW M ra (y :: rb) + 1) % M)
        (min ((cellW M (x :: ra) rb + 1) % M)
          ((cellW M ra rb + (if x = y then 0 else 1)) % M))
termination_by ra rb => ra.length + rb.length

/-- Exact (unwrapped) Wagner–Fischer cell value, the recurrence by which §4.3
of the specification defines the Levenshtein distance; arguments are reversed
prefixes as in `cellW`. -/
def cellT : List Nat → List Nat → Nat
  | [], rb => rb.length
  | _ :: ra, [] => ra.length + 1
  | x :: ra, y :: rb =>
      min (cellT ra (y :: rb) + 1)
        (min (cellT (x :: ra) rb + 1)
          (cellT ra rb + (if x = y then 0 else 1)))
termination_by ra rb => ra.length + rb.length

/-- Levenshtein distance of two byte strings as the specification defines it. -/
def levSpec (a b : List Nat) : Nat :=
  cellT a.reverse b.reverse

/-- The row of wrapped cells at row index `ra.length`, over the columns
reached from the reversed prefix `rb` by consuming `bs`:
`[cellW M ra rb, cellW M ra (bs0 :: rb), cellW M ra (bs1 :: bs0 :: rb), ...]`.
Used to relate the imperative row buffers to `cellW`. -/
def cellRow (M : Nat) (ra rb bs : List Nat) : List Nat :=
  match bs with
  | [] => [cellW M ra rb]
  | bj :: bs => cellW M ra rb :: cellRow M ra (bj :: rb) bs

/-- Two's-complement reduction of an integer to `sz_ssize_t`. -/
def wrapI64 (i : Int) : Int :=
  (i + 2 ^ 63) % 2 ^ 64 - 2 ^ 63

/-- Inner column loop of `sz_alignment_score_serial`, mirroring `levRow` with
signed 64-bit cells, the gap penalty, and the substitution row `sub` of the
current needle byte. -/
def alignRow (gap : Int) (sub : Nat → Int) : List Nat → List Int → Int → List Int
  | [], _, _ => []
  | bj :: bs, pDiag :: pRest, left =>
      let costDeletion := wrapI64 (pRest.headD 0 + gap)
      let costInsertion := wrapI64 (left + gap)
      let costSubstitution := wrapI64 (pDiag + sub bj)
      let c := min costDeletion (min costInsertion costSubstitution)
      c :: alignRow gap sub bs pRest c
  | _ :: _, [], _ => []

/-- Outer row loop of `sz_alignment_score_serial` (no bound, no early exit). -/
def alignLoop (gap : Int) (subs : Nat → Nat → Int) (b : List Nat) :
    List Nat → List Int → Nat → Int
  | [], prev, _ => prev.getD b.length 0
  | ai :: rest, prev, i =>
      let c0 := wrapI64 (i + 1)
      let rowTail := alignRow gap (subs ai) b prev c0
      alignLoop gap subs b rest (c0 :: rowTail) (i + 1)

/-- Embedding of `sz_alignment_score_serial`. The substitution matrix is a
function of the two byte values (the source addresses the flat array through
`char` arithmetic, which a conforming caller reaches only with the documented
row-major layout); the scratch buffer is fully overwritten before being read
and does not appear. -/
def szAlignmentScoreSerial (a b : List Nat) (gap : Int) (subs : Nat → Nat → Int) : Int :=
  if a.length = 0 then wrapI64 b.length
  else if b.length = 0 then wrapI64 a.length
  else alignLoop gap subs b a ((List.range (b.length + 1)).map (fun j => wrapI64 j)) 0

/-- First mixing constant of `sz_hash_serial`. -/
def hc1 : Nat := 0x87c37b91114253d5

/-- Second mixing constant of `sz_hash_serial`. -/
def hc2 : Nat := 0x4cf5ad432745937f

/-- The `k1` lane mix of `sz_hash_serial`: multiply by `c1`, rotate left 31,
multiply by `c2`. -/
def mixK1 (k : Nat) : Nat :=
  (rotl64 ((k * hc1) % M64) 31 * hc2) % M64

/-- The `k2` lane mix of `sz_hash_serial`: multiply by `c2`, rotate left 33,
multiply by `c1`. -/
def mixK2 (k : Nat) : Nat :=
  (rotl64 ((k * hc2) % M64) 33 * hc1) % M64

/-- The 16-byte block loop of `sz_hash_serial`; returns the two lanes and the
remaining (under-16-byte) tail. -/
def hashBlocks : Nat → Nat → List Nat → Nat × Nat × List Nat
  | h1, h2, b0 :: b1 :: b2 :: b3 :: b4 :: b5 :: b6 :: b7 ::
      b8 :: b9 :: b10 :: b11 :: b12 :: b13 :: b14 :: b15 :: rest =>
      let k1 := lePack [b0, b1, b2, b3, b4, b5, b6, b7]
      let k2 := lePack [b8, b9, b10, b11, b12, b13, b14, b15]
      let h1a := ((rotl64 (h1 ^^^ mixK1 k1) 27 + h2) % M64 * 5 + 0x52dce729) % M64
      let h2a := ((rotl64 (h2 ^^^ mixK2 k2) 31 + h1a) % M64 * 5 + 0x38495ab5) % M64
      hashBlocks h1a h2a rest
  | h1, h2, l => (h1, h2, l)

/-- Embedding of `sz_hash_serial`: both lanes seeded with the length, the
block loop, then the fall-through tail switch packing `k2` from bytes
`8..len-1` (when `len >= 9`) and `k1` from bytes `0..min(len,8)-1` (when
`len >= 1`), and the final `h1 + h2`. -/
def szHashSerial (l : List Nat) : Nat :=
  let h0 := l.length % M64
  let r := hashBlocks h0 h0 l
  let tail := r.2.2
  let h2f := if 9 ≤ tail.length then r.2.1 ^^^ mixK2 (lePack (tail.drop 8)) else r.2.1
  let h1f := if 1 ≤ tail.length then r.1 ^^^ mixK1 (lePack (tail.take 8)) else r.1
  (h1f + h2f) % M64

/-! Supporting lemmas about the wrapped Wagner–Fischer cells and rows. -/

theorem cellW_lt (M : Nat) (hM : 0 < M) : ∀ ra rb, cellW M ra rb < M := by
  intro ra rb
  induction ra, rb using cellW.induct M with
  | case1 rb => rw [cellW]; exact Nat.mod_lt _ hM
  | case2 x ra => rw [cellW]; exact Nat.mod_lt _ hM
  | case3 x ra y rb ih1 ih2 ih3 =>
      rw [cellW]
      exact lt_of_le_of_lt (le_trans (min_le_left _ _) (le_refl _)) (Nat.mod_lt _ hM)

theorem cellW_comm (M : Nat) : ∀ ra rb, cellW M ra rb = cellW M rb ra := by
  intro ra rb
  induction ra, rb using cellW.induct M with
  | case1 rb =>
      cases rb with
      | nil => rfl
      | cons y rb => rw [cellW, cellW]; simp
  | case2 x ra => rw [cellW, cellW]; simp
  | case3 x ra y rb ih1 ih2 ih3 =>
      rw [cellW, cellW]
      rw [← ih1, ← ih2, ← ih3]
      have hd : (if y = x then 0 else 1) = (if x = y then 0 else 1) := by
        simp [eq_comm]
      rw [hd, Nat.min_left_comm]

theorem cellT_le_max : ∀ ra rb : List Nat, cellT ra rb ≤ max ra.length rb.length := by
  intro ra rb
  induction ra, rb using cellT.induct with
  | case1 rb => rw [cellT]; simp
  | case2 x ra => rw [cellT]; simp
  | case3 x ra y rb ih1 ih2 ih3 =>
      rw [cellT]
      refine le_trans (le_trans (min_le_right _ _) (min_le_right _ _)) ?_
      have : (if x = y then 0 else 1) ≤ 1 := by split <;> omega
      simp only [List.length_cons]
      omega

theorem cellW_eq_cellT (M : Nat) :
    ∀ ra rb, ra.length + 1 < M → rb.length + 1 < M → cellW M ra rb = cellT ra rb := by
  intro ra rb
  induction ra, rb using cellW.induct M with
  | case1 rb => intro _ h2; rw [cellW, cellT]; exact Nat.mod_eq_of_lt (by omega)
  | case2 x ra =>
      intro h1 h2
      rw [cellW, cellT]
      simp only [List.length_cons] at h1
      exact Nat.mod_eq_of_lt (by omega)
  | case3 x ra y rb ih1 ih2 ih3 =>
      intro h1 h2
      simp only [List.length_cons] at h1 h2
      rw [cellW, cellT]
      have e1 := ih1 (by omega) (by simpa using h2)
      have e2 := ih2 (by simpa using h1) (by omega)
      have e3 := ih3 (by omega) (by omega)
      have b1 := cellT_le_max ra (y :: rb)
      have b2 := cellT_le_max (x :: ra) rb
      have b3 := cellT_le_max ra rb
      simp only [List.length_cons] at b1 b2 b3
      have hδ : (if x = y then 0 else 1) ≤ 1 := by split <;> omega
      rw [e1, e2, e3, Nat.mod_eq_of_lt (by omega), Nat.mod_eq_of_lt (by omega),
        Nat.mod_eq_of_lt (by omega)]

theorem cellRow_head (M : Nat) (ra rb bs : List Nat) :
    (cellRow M ra rb bs).headD 0 = cellW M ra rb := by
  cases bs <;> rfl

theorem cellRow_ne_nil (M : Nat) (ra rb bs : List Nat) : cellRow M ra rb bs ≠ [] := by
  cases bs <;> simp [cellRow]

theorem cellRow_cons (M : Nat) (ra rb bs : List Nat) :
    cellRow M ra rb bs = cellW M ra rb :: (cellRow M ra rb bs).tail := by
  cases bs <;> rfl

theorem cellRow_getD_last (M : Nat) (ra : List Nat) :
    ∀ bs rb, (cellRow M ra rb bs).getD bs.length 0 = cellW M ra (bs.reverse ++ rb) := by
  intro bs
  induction bs with
  | nil => intro rb; rfl
  | cons bj bs ih =>
      intro rb
      show (cellRow M ra (bj :: rb) bs).getD bs.length 0 = _
      rw [ih (bj :: rb)]
      simp

theorem cellRow_mem (M : Nat) (ra : List Nat) :
    ∀ bs rb x, x ∈ cellRow M ra rb bs →
      ∃ rb', rb'.length ≤ bs.length + rb.length ∧ x = cellW M ra rb' := by
  intro bs
  induction bs with
  | nil =>
      intro rb x hx
      simp [cellRow] at hx
      exact ⟨rb, by omega, hx⟩
  | cons bj bs ih =>
      intro rb x hx
      simp only [cellRow, List.mem_cons] at hx
      rcases hx with hx | hx
      · exact ⟨rb, by simp, hx⟩
      · rcases ih (bj :: rb) x hx with ⟨rb', hlen, he⟩
        exact ⟨rb', by simp at hlen ⊢; omega, he⟩

theorem cellRow_init (M : Nat) :
    ∀ bs rb : List Nat,
      cellRow M [] rb bs = (List.range (bs.length + 1)).map (fun k => (rb.length + k) % M) := by
  intro bs
  induction bs with
  | nil =>
      intro rb
      simp [cellRow, cellW, List.range_succ]
  | cons bj bs ih =>
      intro rb
      rw [show (bj :: bs).length + 1 = (bs.length + 1) + 1 from by simp,
        List.range_succ_eq_map]
      simp only [cellRow, List.map_cons, List.map_map]
      congr 1
      · rw [cellW]; simp
      · rw [ih (bj :: rb)]
        apply List.map_congr_left
        intro k _
        simp only [Function.comp_apply, List.length_cons, Nat.succ_eq_add_one]
        congr 1
        omega

theorem levRow_cellRow (M ai : Nat) (ra : List Nat) :
    ∀ bs rb,
      levRow M ai bs (cellRow M ra rb bs) (cellW M (ai :: ra) rb)
        = (cellRow M (ai :: ra) rb bs).tail := by
  intro bs
  induction bs with
  | nil => intro rb; rfl
  | cons bj bs ih =>
      intro rb
      show levRow M ai (bj :: bs) (cellW M ra rb :: cellRow M ra (bj :: rb) bs) _ = _
      rw [levRow]
      rw [cellRow_head]
      have hc : min ((cellW M ra (bj :: rb) + 1) % M)
          (min ((cellW M (ai :: ra) rb + 1) % M)
            ((cellW M ra rb + if ai = bj then 0 else 1) % M))
          = cellW M (ai :: ra) (bj :: rb) := by
        rw [cellW]
      rw [hc, ih (bj :: rb)]
      show _ = (cellRow M (ai :: ra) rb (bj :: bs)).tail
      rw [show cellRow M (ai :: ra) rb (bj :: bs)
          = cellW M (ai :: ra) rb :: cellRow M (ai :: ra) (bj :: rb) bs from rfl]
      rw [List.tail_cons]
      exact (cellRow_cons M (ai :: ra) (bj :: rb) bs).symm

theorem foldl_min_le_acc : ∀ (l : List Nat) (acc : Nat),
    List.foldl (fun m v => min v m) acc l ≤ acc := by
  intro l
  induction l with
  | nil => intro acc; simp
  | cons v l ih =>
      intro acc
      exact le_trans (ih (min v acc)) (min_le_right _ _)

theorem foldl_min_le_mem : ∀ (l : List Nat) (acc x : Nat), x ∈ l →
    List.foldl (fun m v => min v m) acc l ≤ x := by
  intro l
  induction l with
  | nil => intro acc x hx; simp at hx
  | cons v l ih =>
      intro acc x hx
      rcases List.mem_cons.mp hx with h | h
      · subst h
        exact le_trans (foldl_min_le_acc l (min x acc)) (min_le_left _ _)
      · exact ih (min v acc) x h

theorem levLoop_spec (M bound : Nat) (b : List Nat) (hb : b ≠ []) :
    ∀ (as_ ra : List Nat),
      (∀ ra' rb' : List Nat, ra'.length ≤ ra.length + as_.length → rb'.length ≤ b.length →
        cellW M ra' rb' < bound) →
      levLoop M b bound as_ (cellRow M ra [] b) ra.length
        = cellW M (as_.reverse ++ ra) b.reverse := by
  obtain ⟨bj, bs, rfl⟩ := List.exists_cons_of_ne_nil hb
  intro as_
  induction as_ with
  | nil =>
      intro ra Hv
      simp only [levLoop]
      rw [show (bj :: bs).length = (bj :: bs).length from rfl, cellRow_getD_last]
      simp only [List.append_nil, List.reverse_nil, List.nil_append]
      rw [if_pos (Hv ra (bj :: bs).reverse (by simp) (by simp))]
  | cons ai rest ih =>
      intro ra Hv
      simp only [levLoop]
      rw [show (ra.length + 1) % M = cellW M (ai :: ra) [] from by rw [cellW],
        levRow_cellRow]
      rw [show (cellRow M (ai :: ra) [] (bj :: bs)).tail = cellRow M (ai :: ra) [bj] bs from rfl]
      have hne := cellRow_ne_nil M (ai :: ra) [bj] bs
      have hmem : (cellRow M (ai :: ra) [bj] bs).headD 0 ∈ cellRow M (ai :: ra) [bj] bs := by
        cases hcr : cellRow M (ai :: ra) [bj] bs with
        | nil => exact absurd hcr hne
        | cons v l => simp
      obtain ⟨rb', hlen, he⟩ := cellRow_mem M (ai :: ra) bs [bj] _ hmem
      have hval : (cellRow M (ai :: ra) [bj] bs).headD 0 < bound := by
        rw [he]
        exact Hv (ai :: ra) rb' (by simp only [List.length_cons]; omega)
          (by simp only [List.length_cons, List.length_nil] at hlen ⊢; omega)
      have hfold := foldl_min_le_mem (cellRow M (ai :: ra) [bj] bs) bound _ hmem
      rw [if_neg (by omega)]
      rw [show cellW M (ai :: ra) [] :: cellRow M (ai :: ra) [bj] bs
          = cellRow M (ai :: ra) [] (bj :: bs) from rfl]
      rw [show ra.length + 1 = (ai :: ra).length from by simp]
      rw [ih (ai :: ra) (by intro ra' rb' h1 h2; exact Hv ra' rb' (by simp at h1 ⊢; omega) h2)]
      simp [List.reverse_cons, List.append_assoc]

theorem szLev_eq_cellW (x y : List Nat) (bound M : Nat)
    (hx : x ≠ []) (hy : y ≠ [])
    (hM : (if x.length < 256 ∧ y.length < 256 then 256 else M64) = M)
    (hdiff : (if y.length < x.length then x.length - y.length else y.length - x.length) ≤ bound)
    (Hv : ∀ ra' rb' : List Nat, ra'.length ≤ x.length → rb'.length ≤ y.length →
        cellW M ra' rb' < bound) :
    szLevenshteinSerial x y bound = cellW M x.reverse y.reverse := by
  have hx0 : x.length ≠ 0 := by simpa using hx
  have hy0 : y.length ≠ 0 := by simpa using hy
  simp only [szLevenshteinSerial]
  rw [if_neg hx0, if_neg hy0, if_neg (by simp only [gt_iff_lt, not_lt]; exact hdiff), hM]
  have hinit : (List.range (y.length + 1)).map (· % M) = cellRow M [] [] y := by
    rw [cellRow_init]
    simp
  rw [hinit]
  have hspec := levLoop_spec M bound y hy x []
    (by intro ra' rb' h1 h2; exact Hv ra' rb' (by simpa using h1) h2)
  simpa using hspec

theorem cellT_single_row : ∀ n, 1 ≤ n → cellT [65] (List.replicate n 66) = n := by
  intro n
  induction n with
  | zero => intro h; omega
  | succ m ih =>
      intro _
      rw [List.replicate_succ, cellT]
      have hb1 : cellT [] (66 :: List.replicate m 66) = m + 1 := by rw [cellT]; simp
      have hb2 : cellT [] (List.replicate m 66) = m := by rw [cellT]; simp
      by_cases hm : m = 0
      · subst hm
        have hb3 : cellT [65] (List.replicate 0 66) = 1 := by
          rw [show List.replicate 0 66 = ([] : List Nat) from rfl, cellT]
          simp
        rw [hb1, hb2, hb3]
        norm_num
      · rw [hb1, hb2, ih (by omega)]
        norm_num

theorem cellW_single_row : ∀ n, 1 ≤ n → n ≤ 254 → cellW 256 [65] (List.replicate n 66) = n := by
  intro n
  induction n with
  | zero => intro h _; omega
  | succ m ih =>
      intro _ hle
      rw [List.replicate_succ, cellW]
      have hb1 : cellW 256 [] (66 :: List.replicate m 66) = (m + 1) % 256 := by
        rw [cellW]; simp
      have hb2 : cellW 256 [] (List.replicate m 66) = m % 256 := by
        rw [cellW]; simp
      by_cases hm : m = 0
      · subst hm
        have hb3 : cellW 256 [65] (List.replicate 0 66) = 1 % 256 := by
          rw [show List.replicate 0 66 = ([] : List Nat) from rfl, cellW]
          simp
        rw [hb1, hb2, hb3]
        norm_num
      · rw [hb1, hb2, ih (by omega) (by omega)]
        have e1 : (m + 1) % 256 = m + 1 := Nat.mod_eq_of_lt (by omega)
        have e2 : m % 256 = m := Nat.mod_eq_of_lt (by omega)
        rw [e1, e2]
        have e3 : (m + 1 + 1) % 256 = m + 2 := Nat.mod_eq_of_lt (by omega)
        rw [e3]
        norm_num
        omega

theorem cellW_single_wrap : cellW 256 [65] (List.replicate 255 66) = 0 := by
  have h254 := cellW_single_row 254 (by norm_num) (by norm_num)
  rw [show (255 : Nat) = 254 + 1 from rfl, List.replicate_succ, cellW]
  have hb1 : cellW 256 [] (66 :: List.replicate 254 66) = 255 := by rw [cellW]; norm_num
  have hb2 : cellW 256 [] (List.replicate 254 66) = 254 := by rw [cellW]; norm_num
  rw [hb1, hb2, h254]
  norm_num

/-! Theorems settling the claims. -/

/-- C1: the claim states `find` returns `p` exactly at the leftmost occurrence
of the needle and the not-found sentinel when there is none. The code violates
this: for the 8-byte haystack `BBBBBBBA` and the two-byte needle `A\x00`,
`sz_find_serial` (through `sz_find_2byte_serial`) returns position 7, yet no
position of the haystack carries the needle — the odd-offset lane built from
`text_vec.u64 >> 8` compares the shifted-in zero byte with the needle's second
byte, producing a false match for needles ending in `0x00`. -/
theorem claim_C1_find_false_match :
    szFindSerial 0 [66, 66, 66, 66, 66, 66, 66, 65] [65, 0] = some 7 ∧
      ∀ p, p < 8 → ¬ ((List.drop p [66, 66, 66, 66, 66, 66, 66, 65]).take 2 = [65, 0]) := by
  decide

/-- C2: the claim states `order` compares bytes as unsigned 8-bit values. The
code violates this in its byte-tail loop, which compares `char` values
(signed on the library's x86-64 targets): `order([0x80], [0x41])` returns
`Less` (-1) although 0x80 > 0x41 unsigned. The second conjunct shows the same
byte pair compared through the 8-byte SWAR loop yields `Greater` (1), so the
source is inconsistent between its two loops and the tail comparison is the
slip. -/
theorem claim_C2_order_signed_tail :
    szOrderSerial [128] [65] = -1 ∧
      szOrderSerial [65, 65, 65, 65, 65, 65, 65, 128] [65, 65, 65, 65, 65, 65, 65, 65] = 1 := by
  decide

/-- C3: the claim states `levenshtein(x, y, scratch, b) = min(b, d(x, y))`.
The code violates this in the 8-bit-cell kernel: with `x = "A"`,
`y = "B"*255` and `bound = 300`, the store `previous_distances[255] + 1`
wraps from 256 to 0 in a `sz_u8_t` cell and the function returns 0, while
the true distance (as the specification's own recurrence defines it) is
255, so `min(300, 255) = 255 ≠ 0`. -/
theorem claim_C3_levenshtein_u8_overflow :
    szLevenshteinSerial [65] (List.replicate 255 66) 300 = 0 ∧
      levSpec [65] (List.replicate 255 66) = 255 := by
  have hne : List.replicate 255 66 ≠ ([] : List Nat) := by
    intro hcon
    have h2 := congrArg List.length hcon
    rw [List.length_replicate, List.length_nil] at h2
    exact absurd h2 (by norm_num)
  constructor
  · have hM : (if ([65] : List Nat).length < 256 ∧ (List.replicate 255 66).length < 256
        then 256 else M64) = 256 := by
      rw [List.length_replicate, List.length_singleton]
      norm_num
    have hdiff : (if (List.replicate 255 66).length < ([65] : List Nat).length
        then ([65] : List Nat).length - (List.replicate 255 66).length
        else (List.replicate 255 66).length - ([65] : List Nat).length) ≤ 300 := by
      rw [List.length_replicate, List.length_singleton]
      norm_num
    rw [szLev_eq_cellW [65] (List.replicate 255 66) 300 256 (by simp) hne hM hdiff
      (by intro ra' rb' _ _
          have := cellW_lt 256 (by norm_num) ra' rb'
          omega)]
    rw [List.reverse_replicate, show ([65] : List Nat).reverse = [65] from rfl]
    exact cellW_single_wrap
  · unfold levSpec
    rw [List.reverse_replicate, show ([65] : List Nat).reverse = [65] from rfl]
    exact cellT_single_row 255 (by norm_num)

/-- C4: with the unbounded limit (`bound = SZ_SIZE_MAX = 2^64 - 1`) and
strings of representable length, `sz_levenshtein_serial` is symmetric in its
two inputs: in the 8-bit-cell path the wrapped dynamic program is symmetric
under transposition (even where it overflows), and in the `sz_size_t` path no
cell ever wraps or reaches the bound, so the exact symmetric distance is
computed. -/
theorem claim_C4_levenshtein_symmetry (x y : List Nat)
    (hx : x.length ≤ M64 - 2) (hy : y.length ≤ M64 - 2) :
    szLevenshteinSerial x y (M64 - 1) = szLevenshteinSerial y x (M64 - 1) := by
  have hM64 : M64 = 18446744073709551616 := by norm_num [M64]
  by_cases hx0 : x = []
  · subst hx0
    by_cases hy0 : y = []
    · subst hy0; rfl
    · have hyl : y.length ≠ 0 := by simpa using hy0
      simp [szLevenshteinSerial, hyl]
  · by_cases hy0 : y = []
    · have hxl : x.length ≠ 0 := by simpa using hx0
      subst hy0
      simp [szLevenshteinSerial, hxl]
    · have hdiff1 : (if y.length < x.length then x.length - y.length
          else y.length - x.length) ≤ M64 - 1 := by
        split <;> omega
      have hdiff2 : (if x.length < y.length then y.length - x.length
          else x.length - y.length) ≤ M64 - 1 := by
        split <;> omega
      by_cases hsm : x.length < 256 ∧ y.length < 256
      · rw [szLev_eq_cellW x y (M64 - 1) 256 hx0 hy0 (if_pos hsm) hdiff1
            (by intro ra' rb' _ _
                have := cellW_lt 256 (by norm_num) ra' rb'
                omega),
          szLev_eq_cellW y x (M64 - 1) 256 hy0 hx0 (if_pos ⟨hsm.2, hsm.1⟩) hdiff2
            (by intro ra' rb' _ _
                have := cellW_lt 256 (by norm_num) ra' rb'
                omega),
          cellW_comm]
      · have hv1 : ∀ ra' rb' : List Nat, ra'.length ≤ x.length → rb'.length ≤ y.length →
            cellW M64 ra' rb' < M64 - 1 := by
          intro ra' rb' h1 h2
          rw [cellW_eq_cellT M64 ra' rb' (by omega) (by omega)]
          have h3 : cellT ra' rb' ≤ M64 - 2 :=
            le_trans (cellT_le_max ra' rb') (max_le (le_trans h1 hx) (le_trans h2 hy))
          omega
        have hv2 : ∀ ra' rb' : List Nat, ra'.length ≤ y.length → rb'.length ≤ x.length →
            cellW M64 ra' rb' < M64 - 1 := by
          intro ra' rb' h1 h2
          rw [cellW_eq_cellT M64 ra' rb' (by omega) (by omega)]
          have h3 : cellT ra' rb' ≤ M64 - 2 :=
            le_trans (cellT_le_max ra' rb') (max_le (le_trans h1 hy) (le_trans h2 hx))
          omega
        rw [szLev_eq_cellW x y (M64 - 1) M64 hx0 hy0 (if_neg hsm) hdiff1 hv1,
          szLev_eq_cellW y x (M64 - 1) M64 hy0 hx0
            (if_neg (fun hc => hsm ⟨hc.2, hc.1⟩)) hdiff2 hv2,
          cellW_comm]

/-- Witness for C4 at concrete inputs. -/
theorem claim_C4_witness :
    szLevenshteinSerial [1, 2] [3] (M64 - 1) = szLevenshteinSerial [3] [1, 2] (M64 - 1) :=
  claim_C4_levenshtein_symmetry [1, 2] [3] (by norm_num [M64]) (by norm_num [M64])

/-- C5: the claim states `rfind_byte` returns the largest position holding the
byte. The code violates this: for an 8-aligned 32-byte haystack whose only
occurrence of the byte sits at position 1, `sz_rfind_byte_serial` returns the
not-found sentinel — after the misaligned-head loop stops at the aligned
offset 24, the backward SWAR loop's `text - 8 >= haystack` guard leaves
positions 1..7 unvisited, and the final tail loop starting at the aligned
cursor only examines position 0. -/
theorem claim_C5_rfind_byte_misses :
    szRfindByteSerial 0 (66 :: 65 :: List.replicate 30 66) 65 = none ∧
      (66 :: 65 :: List.replicate 30 66).getD 1 0 = 65 := by
  decide

/-- C6: `find` returns the not-found sentinel whenever the haystack is
shorter than the needle, and whenever the needle is empty, for every
alignment of the haystack. -/
theorem claim_C6_find_guards (addr : Nat) (h n : List Nat)
    (hc : h.length < n.length ∨ n.length = 0) :
    szFindSerial addr h n = none := by
  rcases hc with hlt | h0
  · simp [szFindSerial, hlt]
  · simp [szFindSerial, h0]

/-- Witness for C6 at concrete inputs, covering both guard branches. -/
theorem claim_C6_witness :
    szFindSerial 0 [1, 2, 3] [1, 2, 3, 4] = none ∧ szFindSerial 5 [9, 9] [] = none :=
  ⟨claim_C6_find_guards 0 [1, 2, 3] [1, 2, 3, 4] (Or.inl (by decide)),
    claim_C6_find_guards 5 [9, 9] [] (Or.inr rfl)⟩

/-- C7: `alignment_score` with an empty first string returns the raw length
of the second (not `length * gap`), and symmetrically; the lengths must be
representable in `sz_ssize_t`. -/
theorem claim_C7_alignment_empty (gap : Int) (subs : Nat → Nat → Int) (a b : List Nat)
    (ha : a.length < 2 ^ 63) (hb : b.length < 2 ^ 63) :
    szAlignmentScoreSerial [] b gap subs = b.length ∧
      szAlignmentScoreSerial a [] gap subs = a.length := by
  have hwrap : ∀ k : Nat, k < 2 ^ 63 → wrapI64 k = k := by
    intro k hk
    unfold wrapI64
    have h63 : (2 : Int) ^ 63 = 9223372036854775808 := by norm_num
    have h64 : (2 : Int) ^ 64 = 18446744073709551616 := by norm_num
    have hk' : (k : Int) < 9223372036854775808 := by
      rw [← h63]
      exact_mod_cast hk
    rw [Int.emod_eq_of_lt (by omega) (by omega)]
    omega
  constructor
  · simp only [szAlignmentScoreSerial, List.length_nil, eq_self_iff_true, if_true]
    exact hwrap b.length hb
  · by_cases ha0 : a.length = 0
    · obtain rfl := List.length_eq_zero.mp ha0
      simp only [szAlignmentScoreSerial, List.length_nil, eq_self_iff_true, if_true]
      exact hwrap 0 (by norm_num)
    · simp only [szAlignmentScoreSerial, List.length_nil, eq_self_iff_true, if_true]
      rw [if_neg ha0]
      exact hwrap a.length ha

/-- Witness for C7 at concrete inputs. -/
theorem claim_C7_witness :
    szAlignmentScoreSerial [] [7, 8] 2 (fun _ _ => 3) = 2 ∧
      szAlignmentScoreSerial [5] [] 2 (fun _ _ => 3) = 1 := by
  have h := claim_C7_alignment_empty 2 (fun _ _ => 3) [5] [7, 8] (by norm_num) (by norm_num)
  exact ⟨by simpa using h.1, by simpa using h.2⟩

/-- C8: `hash` is a pure function of the input bytes, and the hash of the
empty string is 0 (both lanes seeded with length 0, no blocks, no tail,
final `h1 + h2 = 0`). -/
theorem claim_C8_hash_pure_empty :
    (∀ s t : List Nat, s = t → szHashSerial s = szHashSerial t) ∧ szHashSerial [] = 0 :=
  ⟨fun _ _ hst => by rw [hst], by decide⟩

/-- Witness for C8: the purity conjunct applied at a concrete input, plus the
empty-string value. -/
theorem claim_C8_witness :
    szHashSerial [10, 20] = szHashSerial [10, 20] ∧ szHashSerial [] = 0 :=
  ⟨claim_C8_hash_pure_empty.1 [10, 20] [10, 20] rfl, claim_C8_hash_pure_empty.2⟩

/-- C9: the claim states `to_upper` leaves 'A'..'Z' unchanged and maps
'a'..'z' up, and `to_lower` maps 'A'..'Z' down and leaves 'a'..'z' unchanged.
The code violates the first part: the `upped` table rows for indices 64..95
were copied from the `lowered` table, so `sz_char_toupper('A') = 'a'` (the
function swaps case on the ASCII letters instead of upper-casing). The other
three parts hold, as the remaining conjuncts show on the range bounds. -/
theorem claim_C9_toupper_table_swap :
    szCharToupper 65 = some 97 ∧ szCharToupper 90 = some 122 ∧
      szCharToupper 97 = some 65 ∧ szCharToupper 122 = some 90 ∧
      szCharTolower 65 = some 97 ∧ szCharTolower 90 = some 122 ∧
      szCharTolower 97 = some 97 ∧ szCharTolower 122 = some 122 := by
  decide

/-- C10: the claim states the table index derived from the input character is
always within 0..255. The code computes the index as `(int)c` from a `char`,
which on the library's signed-`char` targets is negative for every byte at or
above 0x80: byte 0x80 yields index -128 and the 256-entry table read is out
of bounds. -/
theorem claim_C10_negative_index :
    caseTableIndex 128 = -128 ∧ szCharTolower 128 = none ∧ szCharToupper 255 = none := by
  decide

end StringZilla
